import Mathlib

/-!
Verification of the writeBundle engine of vite-plugin-specifier
(src/index.ts) against its natural-language specification.

Shallow embedding conventions:
* A JS string is modelled as a list of characters (`Str`); `lit` injects a
  Lean string literal.
* A file of the output directory is abstracted to the ordered list of the
  module-specifier string literals occurring in it (`Specs`); the empty
  JS string corresponds to the empty list, so the JS truthiness test
  `if (code)` becomes a non-emptiness test.
* The external rewrite service `@knighted/specifier` maps a callback over
  every specifier of a file (its documented contract, also visible in the
  toCallback snapshot of this repository); its failure modes are supplied
  by oracles (`Svc`): `thr` marks paths for which `specifier.update`
  rejects, `err` marks paths for which it resolves with an in-band
  `error`, `errSrc` likewise for `specifier.updateSrc` on in-memory code.
* Filesystem effects are reified as an `Action` trace instead of being
  performed.  The pass structure of writeBundle guarantees that a path
  read by a later service call has not been written or removed by an
  earlier iteration (the first pass writes nothing, and the extension-map
  pass only reads the very file of the current iteration, which earlier
  iterations never touch because record keys are distinct and writes
  target renamed paths), so reads are carried out against the initial
  filesystem value `fs`.
* Regexes of the source are compiled by hand: each is anchored literal
  suffix or relative-path matching, reproduced as executable functions on
  `Str`.  Case-insensitive flags are modelled over the lower-case
  filenames the plugin actually produces and consumes.
-/

namespace VPS

abbrev Str : Type := List Char

/-- Characters of a JS string literal. -/
def lit (s : String) : Str := s.data

/-- Model of JS startsWith: the first characters of `s` are exactly `p`. -/
def sw (s p : Str) : Bool := decide (s.take p.length = p)

/-- Model of JS endsWith and of an anchored literal-suffix regex test:
the last characters of `s` are exactly `p`. -/
def ew (s p : Str) : Bool := decide (s.drop (s.length - p.length) = p)

/-- Remove the last `n` characters. -/
def dropSuf (s : Str) (n : Nat) : Str := s.take (s.length - n)

/-- Association-list lookup by key equality, modelling `obj[k]`,
`Map.prototype.get`, and a read of a file from the output directory. -/
def alookup {α : Type} : List (Str × α) → Str → Option α
  | [], _ => none
  | p :: ps, k => if p.1 = k then some p.2 else alookup ps k

/-- Membership of a key, modelling `Map.prototype.has` and key presence in
a JS object. -/
def hasKey {α : Type} : List (Str × α) → Str → Bool
  | [], _ => false
  | p :: ps, k => if p.1 = k then true else hasKey ps k

/-- Match of the regex piece `^(\.\.?\/)` at the start of a specifier:
the greedy optional dot matches "../" when possible, else "./". -/
def relPre (v : Str) : Option Str :=
  if sw v (lit "../") then some (lit "../")
  else if sw v (lit "./") then some (lit "./")
  else none

/-- One compiled rule of getExtMap: the pattern
`^(\.\.?\/)(.+)\EXT$` with replacement `$1$2TARGET`. -/
structure ExtRule where
  ext : Str
  target : Str
deriving DecidableEq, Repr

/-- Semantics of one compiled rule: `some` of the replaced string when the
pattern matches (relative marker, then a non-empty middle captured by the
greedy group, then the literal suffix), `none` otherwise. -/
def ruleApply (r : ExtRule) (v : Str) : Option Str :=
  match relPre v with
  | none => none
  | some p =>
    let rest := v.drop p.length
    if ew rest r.ext ∧ r.ext.length < rest.length then
      some (p ++ dropSuf rest r.ext.length ++ r.target)
    else none

/-- The extension map option: an ordered list of (key, target) pairs with
distinct keys, modelling the JS object literal. -/
abbrev ExtMap : Type := List (Str × Str)

/-- Lookup of `extMap[k]`. -/
def lookupExt (em : ExtMap) (k : Str) : Option Str := alookup em k

/-- Model of the test `/\.d\.ts$/i.test(ext)` on a map key. -/
def isDecKey (k : Str) : Bool := ew k (lit ".d.ts")

/-- Model of getExtMap of src/index.ts: compile the extension map into an
ordered pattern table, skipping declaration-suffix keys. -/
def getExtMap (em : ExtMap) : List ExtRule :=
  (em.filter (fun e => ! isDecKey e.1)).map (fun e => { ext := e.1, target := e.2 })

/-- Application of an ordered pattern table by the rewrite service: first
matching pattern wins, `none` when no pattern matches. -/
def applyRules : List ExtRule → Str → Option Str
  | [], _ => none
  | r :: rs, v =>
    match ruleApply r v with
    | some w => some w
    | none => applyRules rs v

/-- The unified specifier-updating contract: a replacement or no change. -/
abbrev Updater : Type := Str → Option Str

/-- Code of a file, abstracted to its list of specifier literals. -/
abbrev Specs : Type := List Str

/-- The output directory: path to code. -/
abbrev FS : Type := List (Str × Specs)

/-- The rewrite service applies the updater to every specifier, keeping a
specifier unchanged when the updater declines. -/
def applySpecs (u : Updater) (specs : Specs) : Specs :=
  specs.map (fun v => (u v).getD v)

/-- Result shape of the rewrite service calls: `{ code?, error? }`. -/
structure UpdResult where
  code : Option Specs
  error : Option Str
deriving DecidableEq, Repr

/-- Failure oracles for the external rewrite service. -/
structure Svc where
  thr : Str → Bool
  err : Str → Option Str
  errSrc : Specs → Option Str

/-- Model of `await specifier.update(path, updater)`: a rejection
propagates as an exception; otherwise an in-band error or the rewritten
code of the file read from disk is returned. -/
def svcUpdate (svc : Svc) (fs : FS) (u : Updater) (path : Str) : Except Str UpdResult :=
  if svc.thr path then Except.error (lit "update rejected") else
  match svc.err path with
  | some e => Except.ok { code := none, error := some e }
  | none =>
    match alookup fs path with
    | some specs => Except.ok { code := some (applySpecs u specs), error := none }
    | none => Except.ok { code := none, error := some (lit "no such file") }

/-- Model of `await specifier.updateSrc(code, updater)` on in-memory code. -/
def svcUpdateSrc (svc : Svc) (u : Updater) (code : Specs) : UpdResult :=
  match svc.errSrc code with
  | some e => { code := none, error := some e }
  | none => { code := some (applySpecs u code), error := none }

/-- One entry of BundleRecords. -/
structure Rec where
  code : Specs
  error : Option Str
deriving DecidableEq, Repr

/-- The records object, in key-insertion order. -/
abbrev Records : Type := List (Str × Rec)

/-- Assignment `records[k] = v` on a JS object: overwrite in place when the
key exists, append otherwise. -/
def upsert (rs : Records) (k : Str) (v : Rec) : Records :=
  if hasKey rs k then rs.map (fun p => if p.1 = k then (k, v) else p)
  else rs ++ [(k, v)]

/-- First rewrite pass of writeBundle: one `specifier.update` call per
candidate file, records built with `code: update.code ?? ""` and
`error: update.error`; a rejected call is not caught and aborts. -/
def firstPass (svc : Svc) (fs : FS) (u : Updater) : List Str → Records → Except Str Records
  | [], recs => Except.ok recs
  | f :: rest, recs =>
    match svcUpdate svc fs u f with
    | Except.error e => Except.error e
    | Except.ok res =>
      firstPass svc fs u rest (upsert recs f { code := res.code.getD [], error := res.error })

/-- Model of node extname applied to a path: the part after the last slash
is the basename; the suffix from its last dot, or empty when the basename
has no dot or only a leading dot. -/
def extname (f : Str) : Str :=
  let b : Str := (f.reverse.takeWhile (fun c => c != '/')).reverse
  match b.reverse.findIdx? (fun c => c == '.') with
  | none => []
  | some j => if j + 1 = b.length then [] else b.drop (b.length - 1 - j)

/-- Reified filesystem effects and the custom-writer call. -/
inductive Action where
  | write (path : Str) (code : Specs)
  | remove (path : Str)
  | callWriter (records : Records)
deriving DecidableEq, Repr

/-- Semantics of `value.replace(/(.+)\.(?:js|mjs|cjs)$/, "$1" + target)`
without the appended target: the greedy group, i.e. the value with its
final script suffix removed, or `none` when the regex does not match. -/
def scriptStem (v : Str) : Option Str :=
  if ew v (lit ".mjs") ∧ 4 < v.length then some (dropSuf v 4)
  else if ew v (lit ".cjs") ∧ 4 < v.length then some (dropSuf v 4)
  else if ew v (lit ".js") ∧ 3 < v.length then some (dropSuf v 3)
  else none

/-- The inline callback used by the dual and declaration branches: on a
relative specifier, replace a final script suffix by `target` (the
replace call returns the value unchanged when the regex does not match);
on a non-relative specifier return undefined. -/
def dualCb (target : Str) (v : Str) : Option Str :=
  if sw v (lit "./") || sw v (lit "../") then
    some (match scriptStem v with
      | some stem => stem ++ target
      | none => v)
  else none

/-- Model of `filename.replace(/\.d\.ts$/i, x)`. -/
def replaceDts (f x : Str) : Str :=
  if ew f (lit ".d.ts") then dropSuf f 5 ++ x else f

/-- Model of `filename.replace(new RegExp("\\" + ext + "$", "i"), newExt)`. -/
def replaceExt (f ext newExt : Str) : Str :=
  if ew f ext then dropSuf f ext.length ++ newExt else f

/-- Body of the extension-map pass for one record, reproducing the branch
structure of src/index.ts lines 111 to 167. -/
def extMapStep (svc : Svc) (fs : FS) (em : ExtMap) (filename : Str) (r : Rec) :
    Except Str (List Action) :=
  let fileIsDec := ew filename (lit ".d.ts")
  let fileExt := if fileIsDec then lit ".d.ts" else extname filename
  let newExt := (lookupExt em fileExt).getD []
  if r.error = none ∧ newExt ≠ [] then
    if newExt = lit "dual" then
      let isCjs := lookupExt em (lit ".js") = some (lit ".mjs")
      let targetExt := if isCjs then lit ".cjs" else lit ".mjs"
      match svcUpdate svc fs (dualCb targetExt) filename with
      | Except.error e => Except.error e
      | Except.ok u =>
        let dualWrites := match u.code with
          | some dual =>
            if dual ≠ [] then
              [Action.write (replaceDts filename (if isCjs then lit ".d.cts" else lit ".d.mts")) dual]
            else []
          | none => []
        Except.ok (dualWrites ++
          [Action.write (replaceDts filename (if isCjs then lit ".d.mts" else lit ".d.cts")) r.code,
           Action.remove filename])
    else if fileIsDec then
      match svcUpdate svc fs (dualCb newExt) filename with
      | Except.error e => Except.error e
      | Except.ok u =>
        let decWrites := match u.code with
          | some c =>
            if c ≠ [] then
              [Action.write (replaceDts filename (if newExt = lit ".mjs" then lit ".d.mts" else lit ".d.cts")) c]
            else []
          | none => []
        Except.ok (decWrites ++ [Action.remove filename])
    else
      Except.ok [Action.write (replaceExt filename fileExt newExt) r.code, Action.remove filename]
  else Except.ok []

/-- The extension-map pass, iterating the record keys in order. -/
def extMapPass (svc : Svc) (fs : FS) (em : ExtMap) : Records → Except Str (List Action)
  | [] => Except.ok []
  | (f, r) :: rest =>
    match extMapStep svc fs em f r with
    | Except.error e => Except.error e
    | Except.ok acts =>
      match extMapPass svc fs em rest with
      | Except.error e => Except.error e
      | Except.ok acts2 => Except.ok (acts ++ acts2)

/-- Body of the literal specifier-map pass for one candidate filename,
reproducing src/index.ts lines 169 to 197: re-rewrite the recorded code
with the exact-match map and, on success, write to the path with the
extname-derived extension renamed through the extension map when mapped.
The lookup miss case of the records object is unreachable because every
candidate filename was keyed by the first pass. -/
def literalStep (svc : Svc) (emOpt : Option ExtMap) (m : List (Str × Str))
    (records : Records) (filename : Str) : List Action :=
  match alookup records filename with
  | none => []
  | some r =>
    if r.error = none then
      let u := svcUpdateSrc svc (fun v => alookup m v) r.code
      match u.code with
      | some code =>
        if code ≠ [] ∧ u.error = none then
          let ext := extname filename
          let newExt := match emOpt with
            | some em => lookupExt em ext
            | none => none
          [Action.write
            (match newExt with
             | some ne => replaceExt filename ext ne
             | none => filename) code]
        else []
      | none => []
    else []

/-- The literal specifier-map pass, iterating the raw candidate list. -/
def literalPass (svc : Svc) (emOpt : Option ExtMap) (m : List (Str × Str))
    (records : Records) : List Str → List Action
  | [] => []
  | f :: rest => literalStep svc emOpt m records f ++ literalPass svc emOpt m records rest

/-- The writer option: absent, `true`, or a callback. -/
inductive WriterOpt where
  | noneW
  | defaultW
  | callback
deriving DecidableEq, Repr

/-- The write-policy stage: default persistence of every non-error record
to its key, or a single invocation of the custom writer with the full
records object, or nothing. -/
def writerPass (w : WriterOpt) (records : Records) : List Action :=
  match w with
  | WriterOpt.defaultW =>
    records.filterMap (fun p => if p.2.error = none then some (Action.write p.1 p.2.code) else none)
  | WriterOpt.callback => [Action.callWriter records]
  | WriterOpt.noneW => []

/-- Plugin options relevant to the writeBundle hook. -/
structure Options where
  specifierMap : Option (List (Str × Str))
  extMap : Option ExtMap
  handler : Option Updater
  writer : WriterOpt

/-- Model of `join(outDir, filename)` on the normalized paths at play. -/
def joinPath (dir f : Str) : Str := dir ++ lit "/" ++ f

/-- Recognized script and markup suffixes of the manifest filter regex. -/
def scriptExts : List Str :=
  [lit ".js", lit ".mjs", lit ".cjs", lit ".jsx", lit ".ts", lit ".mts", lit ".cts", lit ".tsx"]

/-- Model of `/\.(js|mjs|cjs|jsx|ts|mts|cts|tsx)$/.test(filename)`. -/
def isScriptFile (f : Str) : Bool := scriptExts.any (fun e => ew f e)

/-- The candidate list of writeBundle: manifest filenames with recognized
suffixes joined onto the output directory, concatenated with the globbed
declaration files. -/
def candidateFiles (outDir : Str) (bundle : List Str) (dts : List Str) : List Str :=
  (bundle.filter isScriptFile).map (joinPath outDir) ++ dts

/-- The updater writeBundle passes to the first rewrite pass:
`extMap ? getExtMap(extMap) : handler ?? {}` (the empty pattern table
matches nothing). -/
def chosenUpdater (opts : Options) : Updater :=
  match opts.extMap with
  | some em => applyRules (getExtMap em)
  | none =>
    match opts.handler with
    | some h => h
    | none => fun _ => none

/-- The writeBundle hook (hook = writeBundle): choose the updater, build
the candidate list, run the first rewrite pass, then the extension-map
pass, the literal-map pass and the write-policy stage, returning the
records and the ordered filesystem-effect trace. -/
def writeBundle (svc : Svc) (fs : FS) (opts : Options) (outDir : Str)
    (bundle : List Str) (dts : List Str) : Except Str (Records × List Action) :=
  let updater : Updater := chosenUpdater opts
  let files := candidateFiles outDir bundle dts
  match firstPass svc fs updater files [] with
  | Except.error e => Except.error e
  | Except.ok records =>
    match (match opts.extMap with
           | some em => extMapPass svc fs em records
           | none => Except.ok []) with
    | Except.error e => Except.error e
    | Except.ok acts1 =>
      let acts2 := match opts.specifierMap with
        | some m => literalPass svc opts.extMap m records files
        | none => []
      Except.ok (records, acts1 ++ acts2 ++ writerPass opts.writer records)

/-! String-level helper lemmas. -/

theorem ew_iff (s p : Str) : ew s p = true ↔ p <:+ s := by
  simp only [ew, decide_eq_true_eq]
  constructor
  · intro h; exact h ▸ List.drop_suffix _ _
  · rintro ⟨t, rfl⟩
    simp [List.length_append, List.drop_left]

theorem ew_append (s p : Str) : ew (s ++ p) p = true := (ew_iff _ _).mpr ⟨s, rfl⟩

theorem sw_append (p s : Str) : sw (p ++ s) p = true := by
  simp [sw, List.take_left]

theorem sw_decomp {v p : Str} (h : sw v p = true) : v = p ++ v.drop p.length := by
  simp only [sw, decide_eq_true_eq] at h
  conv_lhs => rw [← List.take_append_drop p.length v, h]

theorem dropSuf_append (s p : Str) : dropSuf (s ++ p) p.length = s := by
  simp [dropSuf, List.length_append, List.take_left]

theorem sw_dotdot_of_dotslash (rest : Str) : sw (['.', '/'] ++ rest) ['.', '.', '/'] = false := by
  simp [sw, List.take_append_eq_append_take, List.take]

theorem ew_drop {v p : Str} {k : Nat} (h : ew v p = true) (hk : k + p.length ≤ v.length) :
    ew (v.drop k) p = true := by
  simp only [ew, decide_eq_true_eq, List.length_drop] at *
  rw [List.drop_drop]
  have : v.length - p.length = k + (v.length - k - p.length) := by omega
  rw [← this] at *
  exact h

theorem suffix_incomp {a b v : Str} (h1 : ew v a = true) (hab : ew b a = false)
    (hba : ew a b = false) : ew v b = false := by
  by_contra hc
  rw [Bool.not_eq_false, ew_iff] at hc
  rw [ew_iff] at h1
  rcases List.suffix_or_suffix_of_suffix h1 hc with h | h
  · rw [← ew_iff] at h; simp [hab] at h
  · rw [← ew_iff] at h; simp [hba] at h

theorem dropSuf_decomp {v p : Str} (h : ew v p = true) : dropSuf v p.length ++ p = v := by
  simp only [ew, decide_eq_true_eq] at h
  conv_rhs => rw [← List.take_append_drop (v.length - p.length) v, h]
  simp [dropSuf]

theorem dropSuf_append_left (p rest : Str) (n : Nat) (h : n ≤ rest.length) :
    dropSuf (p ++ rest) n = p ++ dropSuf rest n := by
  simp only [dropSuf, List.length_append]
  rw [show p.length + rest.length - n = p.length + (rest.length - n) by omega, List.take_add,
      List.take_left, List.drop_left]

theorem ew_length {v p : Str} (h : ew v p = true) : p.length ≤ v.length := by
  rw [ew_iff] at h
  exact h.length_le

/-! Rule-level helper lemmas. -/

theorem relPre_of_dotSlash {v : Str} (h : sw v (lit "./") = true) : relPre v = some (lit "./") := by
  have hd : v = lit "./" ++ v.drop (lit "./").length := sw_decomp h
  have hnot : sw v (lit "../") = false := by
    rw [hd]
    exact sw_dotdot_of_dotslash _
  simp [relPre, hnot, h]

theorem relPre_of_dotDotSlash {v : Str} (h : sw v (lit "../") = true) :
    relPre v = some (lit "../") := by
  simp [relPre, h]

theorem relPre_none {v : Str} (h1 : sw v (lit "./") = false) (h2 : sw v (lit "../") = false) :
    relPre v = none := by
  simp [relPre, h1, h2]

theorem ruleApply_none_of_not_rel {r : ExtRule} {v : Str} (h : relPre v = none) :
    ruleApply r v = none := by
  simp [ruleApply, h]

theorem applyRules_none_of_not_rel {v : Str} (h : relPre v = none) :
    ∀ rules : List ExtRule, applyRules rules v = none := by
  intro rules
  induction rules with
  | nil => rfl
  | cons r rs ih => simp [applyRules, ruleApply_none_of_not_rel h, ih]

theorem ruleApply_match (r : ExtRule) {p : Str} (s : Str) (hp : p = lit "./" ∨ p = lit "../")
    (hs : s ≠ []) : ruleApply r (p ++ s ++ r.ext) = some (p ++ s ++ r.target) := by
  have hpre : relPre (p ++ s ++ r.ext) = some p := by
    rcases hp with rfl | rfl
    · exact relPre_of_dotSlash (by rw [List.append_assoc]; exact sw_append _ _)
    · exact relPre_of_dotDotSlash (by rw [List.append_assoc]; exact sw_append _ _)
  have hrest : (p ++ s ++ r.ext).drop p.length = s ++ r.ext := by
    rw [List.append_assoc]; exact List.drop_left _ _
  have hew : ew (s ++ r.ext) r.ext = true := ew_append _ _
  have hlen : r.ext.length < (s ++ r.ext).length := by
    simp only [List.length_append]
    have := List.length_pos.mpr hs
    omega
  unfold ruleApply
  rw [hpre]
  simp only [hrest]
  rw [if_pos ⟨hew, hlen⟩, dropSuf_append]

theorem ruleApply_no_suffix {r : ExtRule} {v : Str} (h : ew v r.ext = false) :
    ruleApply r v = none := by
  unfold ruleApply
  cases hpre : relPre v with
  | none => rfl
  | some p =>
    have hrest : ew (v.drop p.length) r.ext = false := by
      by_contra hc
      rw [Bool.not_eq_false, ew_iff] at hc
      have : r.ext <:+ v := hc.trans (List.drop_suffix _ _)
      rw [← ew_iff] at this
      simp [h] at this
    simp [hrest]

/-- Shape of the specifiers in the canonical scenarios of the spec: a
relative specifier ending in the plain script suffix ".js" with a
non-empty path middle. -/
def relJsSpec (v : Str) : Bool :=
  ew v (lit ".js") &&
  ((sw v (lit "../") && decide (7 ≤ v.length)) ||
   (!(sw v (lit "../")) && sw v (lit "./") && decide (6 ≤ v.length)))

theorem relPre_sw {v p : Str} (h : relPre v = some p) : sw v p = true := by
  unfold relPre at h
  by_cases h1 : sw v (lit "../") = true
  · simp only [h1, if_true] at h
    cases h
    exact h1
  · rw [Bool.not_eq_true] at h1
    simp only [h1, Bool.false_eq_true, if_false] at h
    by_cases h2 : sw v (lit "./") = true
    · simp only [h2, if_true] at h
      cases h
      exact h2
    · rw [Bool.not_eq_true] at h2
      simp [h2] at h

theorem relJsSpec_parts {v : Str} (h : relJsSpec v = true) :
    ew v (lit ".js") = true ∧ (sw v (lit "./") || sw v (lit "../")) = true ∧ 3 < v.length := by
  simp only [relJsSpec, Bool.and_eq_true, Bool.or_eq_true, Bool.not_eq_true',
    decide_eq_true_eq] at h
  obtain ⟨hjs, hcase⟩ := h
  rcases hcase with ⟨hdd, hlen⟩ | ⟨⟨_, hds⟩, hlen⟩
  · exact ⟨hjs, by simp [hdd], by omega⟩
  · exact ⟨hjs, by simp [hds], by omega⟩

theorem relJsSpec_relPre {v : Str} (h : relJsSpec v = true) :
    ∃ p, relPre v = some p ∧ p.length + 3 < v.length := by
  simp only [relJsSpec, Bool.and_eq_true, Bool.or_eq_true, Bool.not_eq_true',
    decide_eq_true_eq] at h
  obtain ⟨_, hcase⟩ := h
  rcases hcase with ⟨hdd, hlen⟩ | ⟨⟨_, hds⟩, hlen⟩
  · exact ⟨lit "../", relPre_of_dotDotSlash hdd, by simp [lit]; omega⟩
  · exact ⟨lit "./", relPre_of_dotSlash hds, by simp [lit]; omega⟩

theorem ruleApply_ew {r : ExtRule} {v p : Str} (hpre : relPre v = some p)
    (hew : ew v r.ext = true) (hl : p.length + r.ext.length < v.length) :
    ruleApply r v = some (dropSuf v r.ext.length ++ r.target) := by
  have hsw := relPre_sw hpre
  have hrest : ew (v.drop p.length) r.ext = true := ew_drop hew (by omega)
  unfold ruleApply
  rw [hpre]
  dsimp only
  have hlen2 : r.ext.length < (v.drop p.length).length := by
    simp only [List.length_drop]; omega
  rw [if_pos ⟨hrest, hlen2⟩]
  have hd : dropSuf v r.ext.length = p ++ dropSuf (v.drop p.length) r.ext.length := by
    conv_lhs => rw [sw_decomp hsw]
    exact dropSuf_append_left _ _ _ (by simp only [List.length_drop]; omega)
  rw [hd]

theorem applyRules_js {v t : Str} (h : relJsSpec v = true) :
    applyRules [⟨lit ".js", t⟩] v = some (dropSuf v 3 ++ t) := by
  obtain ⟨p, hpre, hl⟩ := relJsSpec_relPre h
  obtain ⟨hjs, _, _⟩ := relJsSpec_parts h
  have hr := ruleApply_ew (r := ⟨lit ".js", t⟩) hpre hjs (by simpa using hl)
  simp only [applyRules, hr]
  rfl

theorem scriptStem_js {v : Str} (h : ew v (lit ".js") = true) (hl : 3 < v.length) :
    scriptStem v = some (dropSuf v 3) := by
  have hm : ew v (lit ".mjs") = false := suffix_incomp h (by decide) (by decide)
  have hc : ew v (lit ".cjs") = false := suffix_incomp h (by decide) (by decide)
  simp [scriptStem, hm, hc, h, hl]

theorem dualCb_js {v : Str} (t : Str) (hrel : (sw v (lit "./") || sw v (lit "../")) = true)
    (h : ew v (lit ".js") = true) (hl : 3 < v.length) :
    dualCb t v = some (dropSuf v 3 ++ t) := by
  rcases Bool.or_eq_true_iff.mp hrel with h1 | h1
  · simp [dualCb, h1, scriptStem_js h hl]
  · simp [dualCb, h1, scriptStem_js h hl]

/-! Records-layer helper lemmas. -/

theorem hasKey_iff {α : Type} (rs : List (Str × α)) (k : Str) :
    hasKey rs k = true ↔ k ∈ rs.map Prod.fst := by
  induction rs with
  | nil => simp [hasKey]
  | cons p ps ih =>
    by_cases h : p.1 = k
    · simp only [hasKey, h, if_true, List.map_cons, List.mem_cons, true_iff]
      exact Or.inl trivial
    · simp only [hasKey, h, if_false, List.map_cons, List.mem_cons, ih]
      constructor
      · exact Or.inr
      · rintro (rfl | hm)
        · exact absurd rfl h
        · exact hm

theorem keys_upsert (rs : Records) (k : Str) (v : Rec) :
    (upsert rs k v).map Prod.fst =
      if hasKey rs k then rs.map Prod.fst else rs.map Prod.fst ++ [k] := by
  by_cases h : hasKey rs k
  · simp only [upsert, h, if_true, List.map_map]
    apply List.map_congr_left
    intro p _
    by_cases hp : p.1 = k
    · simp [hp, Function.comp]
    · simp [hp, Function.comp]
  · simp [upsert, h]

theorem keys_upsert_nodup {rs : Records} {k : Str} {v : Rec}
    (h : (rs.map Prod.fst).Nodup) : ((upsert rs k v).map Prod.fst).Nodup := by
  rw [keys_upsert]
  by_cases hk : hasKey rs k
  · simp [hk, h]
  · have : k ∉ rs.map Prod.fst := fun hm => hk ((hasKey_iff rs k).mpr hm)
    simp [hk, List.nodup_append, h, this]

theorem hasKey_upsert (rs : Records) (k f : Str) (v : Rec) :
    hasKey (upsert rs k v) f = true ↔ hasKey rs f = true ∨ f = k := by
  rw [hasKey_iff, hasKey_iff, keys_upsert]
  by_cases hk : hasKey rs k
  · simp only [hk, if_true]
    constructor
    · exact Or.inl
    · rintro (h | rfl)
      · exact h
      · exact (hasKey_iff rs f).mp hk
  · simp only [hk, Bool.false_eq_true, if_false, List.mem_append, List.mem_singleton]

theorem mem_upsert {rs : Records} {k : Str} {v : Rec} {p : Str × Rec}
    (h : p ∈ upsert rs k v) : p ∈ rs ∨ p = (k, v) := by
  unfold upsert at h
  by_cases hk : hasKey rs k
  · simp only [hk, if_true, List.mem_map] at h
    obtain ⟨q, hq, he⟩ := h
    by_cases hqk : q.1 = k
    · simp only [hqk, if_true] at he
      exact Or.inr he.symm
    · simp only [hqk, if_false] at he
      exact Or.inl (he ▸ hq)
  · simp only [hk, Bool.false_eq_true, if_false, List.mem_append, List.mem_singleton] at h
    exact h

/-- Combined invariant of the first pass: the records object keys every
candidate exactly once, keys come only from the initial object or the
candidate list, and every entry value is either initial or the image of
one rewrite-service call on its key. -/
theorem firstPass_invariant (svc : Svc) (fs : FS) (u : Updater) :
    ∀ (files : List Str) (recs0 recs : Records),
      firstPass svc fs u files recs0 = Except.ok recs →
      ((recs0.map Prod.fst).Nodup → (recs.map Prod.fst).Nodup) ∧
      (∀ f ∈ files, hasKey recs f = true) ∧
      (∀ f, hasKey recs0 f = true → hasKey recs f = true) ∧
      (∀ f, hasKey recs f = true → hasKey recs0 f = true ∨ f ∈ files) ∧
      (∀ p ∈ recs, p ∈ recs0 ∨
        ∃ res, svcUpdate svc fs u p.1 = Except.ok res ∧
          p.2 = { code := res.code.getD [], error := res.error }) := by
  intro files
  induction files with
  | nil =>
    intro recs0 recs h
    cases h
    exact ⟨fun h => h, by simp, fun _ h => h, fun f h => Or.inl h, fun p hp => Or.inl hp⟩
  | cons f rest ih =>
    intro recs0 recs h
    unfold firstPass at h
    cases hu : svcUpdate svc fs u f with
    | error e => rw [hu] at h; cases h
    | ok res =>
      rw [hu] at h
      obtain ⟨hnd, hall, hmono, hfrom, hent⟩ :=
        ih (upsert recs0 f { code := res.code.getD [], error := res.error }) recs h
      refine ⟨fun h0 => hnd (keys_upsert_nodup h0), ?_, ?_, ?_, ?_⟩
      · intro g hg
        rcases List.mem_cons.mp hg with rfl | hg2
        · exact hmono g ((hasKey_upsert recs0 g g _).mpr (Or.inr rfl))
        · exact hall g hg2
      · intro g hg
        exact hmono g ((hasKey_upsert recs0 f g _).mpr (Or.inl hg))
      · intro g hg
        rcases hfrom g hg with hk | hmem
        · rcases (hasKey_upsert recs0 f g _).mp hk with hk0 | rfl
          · exact Or.inl hk0
          · exact Or.inr (List.mem_cons_self _ _)
        · exact Or.inr (List.mem_cons_of_mem _ hmem)
      · intro p hp
        rcases hent p hp with hp0 | hres
        · rcases mem_upsert hp0 with hp1 | rfl
          · exact Or.inl hp1
          · exact Or.inr ⟨res, hu, rfl⟩
        · exact Or.inr hres

/-! Pass-level helper lemmas. -/

/-- The extension under which the extension-map pass looks a file up:
the declaration suffix for declaration files, `extname` otherwise. -/
def fileExtOf (f : Str) : Str :=
  if ew f (lit ".d.ts") = true then lit ".d.ts" else extname f

theorem extMapStep_skip {svc : Svc} {fs : FS} {em : ExtMap} {f : Str} {r : Rec}
    (h : lookupExt em (fileExtOf f) = none) :
    extMapStep svc fs em f r = Except.ok [] := by
  unfold extMapStep
  dsimp only
  rw [show (if ew f (lit ".d.ts") = true then lit ".d.ts" else extname f) = fileExtOf f
    from rfl, h]
  simp

theorem extMapPass_skip {svc : Svc} {fs : FS} {em : ExtMap} : ∀ {recs : Records},
    (∀ p ∈ recs, lookupExt em (fileExtOf p.1) = none) →
    extMapPass svc fs em recs = Except.ok [] := by
  intro recs
  induction recs with
  | nil => intro _; rfl
  | cons p rest ih =>
    intro h
    obtain ⟨f, r⟩ := p
    have h1 : extMapStep svc fs em f r = Except.ok [] :=
      extMapStep_skip (h (f, r) (List.mem_cons_self _ _))
    have h2 : extMapPass svc fs em rest = Except.ok [] :=
      ih (fun q hq => h q (List.mem_cons_of_mem _ hq))
    simp [extMapPass, h1, h2]

/-- Classification of the custom-writer invocation among actions. -/
def isCallW : Action → Bool
  | Action.callWriter _ => true
  | _ => false

theorem extMapStep_no_call {svc : Svc} {fs : FS} {em : ExtMap} {f : Str} {r : Rec}
    {acts : List Action} (h : extMapStep svc fs em f r = Except.ok acts) :
    acts.all (fun a => ! isCallW a) = true := by
  unfold extMapStep at h
  dsimp only at h
  repeat' split at h
  all_goals first
  | (injection h with h2; subst h2; rfl)
  | (injection h)

theorem extMapPass_no_call {svc : Svc} {fs : FS} {em : ExtMap} : ∀ {recs : Records}
    {acts : List Action}, extMapPass svc fs em recs = Except.ok acts →
    acts.all (fun a => ! isCallW a) = true := by
  intro recs
  induction recs with
  | nil =>
    intro acts h
    cases h
    rfl
  | cons p rest ih =>
    intro acts h
    obtain ⟨f, r⟩ := p
    unfold extMapPass at h
    cases h1 : extMapStep svc fs em f r with
    | error e => rw [h1] at h; cases h
    | ok acts1 =>
      rw [h1] at h
      cases h2 : extMapPass svc fs em rest with
      | error e => rw [h2] at h; cases h
      | ok acts2 =>
        rw [h2] at h
        cases h
        rw [List.all_append]
        exact (Bool.and_eq_true _ _).mpr ⟨extMapStep_no_call h1, ih h2⟩

theorem literalStep_no_call {svc : Svc} {emOpt : Option ExtMap} {m : List (Str × Str)}
    {records : Records} {f : Str} :
    (literalStep svc emOpt m records f).all (fun a => ! isCallW a) = true := by
  unfold literalStep
  dsimp only
  repeat' split
  all_goals rfl

theorem literalPass_no_call {svc : Svc} {emOpt : Option ExtMap} {m : List (Str × Str)}
    {records : Records} : ∀ {files : List Str},
    (literalPass svc emOpt m records files).all (fun a => ! isCallW a) = true := by
  intro files
  induction files with
  | nil => rfl
  | cons f rest ih =>
    show (literalStep svc emOpt m records f ++ literalPass svc emOpt m records rest).all _ = true
    rw [List.all_append]
    exact (Bool.and_eq_true _ _).mpr ⟨literalStep_no_call, ih⟩

theorem hasKey_of_mem {α : Type} {rs : List (Str × α)} {p : Str × α} (h : p ∈ rs) :
    hasKey rs p.1 = true :=
  (hasKey_iff rs p.1).mpr (List.mem_map_of_mem Prod.fst h)

theorem applySpecs_id {u : Updater} : ∀ {specs : Specs}, (∀ v ∈ specs, u v = none) →
    applySpecs u specs = specs := by
  intro specs
  induction specs with
  | nil => intro _; rfl
  | cons v vs ih =>
    intro h
    have hv : u v = none := h v (List.mem_cons_self _ _)
    have ht := ih (fun w hw => h w (List.mem_cons_of_mem _ hw))
    simp only [applySpecs, List.map_cons] at ht ⊢
    rw [hv, ht]
    rfl

theorem svcUpdate_ok {svc : Svc} {fs : FS} {u : Updater} {f : Str} (h : svc.thr f = false) :
    ∃ res, svcUpdate svc fs u f = Except.ok res := by
  unfold svcUpdate
  rw [h]
  simp only [Bool.false_eq_true, if_false]
  cases svc.err f with
  | some e => exact ⟨_, rfl⟩
  | none =>
    cases alookup fs f with
    | some specs => exact ⟨_, rfl⟩
    | none => exact ⟨_, rfl⟩

theorem firstPass_ok {svc : Svc} {fs : FS} {u : Updater} : ∀ {files : List Str}
    {recs0 : Records}, (∀ f ∈ files, svc.thr f = false) →
    ∃ recs, firstPass svc fs u files recs0 = Except.ok recs := by
  intro files
  induction files with
  | nil => exact fun _ => ⟨_, rfl⟩
  | cons f rest ih =>
    intro recs0 h
    obtain ⟨res, hres⟩ := svcUpdate_ok (u := u) (h f (List.mem_cons_self _ _))
    obtain ⟨recs, hrecs⟩ :=
      @ih (upsert recs0 f { code := res.code.getD [], error := res.error })
        (fun g hg => h g (List.mem_cons_of_mem _ hg))
    refine ⟨recs, ?_⟩
    unfold firstPass
    rw [hres]
    exact hrecs

/-- Decomposition of a successful writeBundle run into its stages. -/
theorem writeBundle_parts {svc : Svc} {fs : FS} {opts : Options} {outDir : Str}
    {bundle dts : List Str} {records : Records} {acts : List Action}
    (h : writeBundle svc fs opts outDir bundle dts = Except.ok (records, acts)) :
    firstPass svc fs (chosenUpdater opts) (candidateFiles outDir bundle dts) [] =
      Except.ok records ∧
    ∃ acts1 acts2,
      acts = acts1 ++ acts2 ++ writerPass opts.writer records ∧
      (match opts.extMap with
       | some em => extMapPass svc fs em records = Except.ok acts1
       | none => acts1 = ([] : List Action)) ∧
      (match opts.specifierMap with
       | some m =>
         acts2 = literalPass svc opts.extMap m records (candidateFiles outDir bundle dts)
       | none => acts2 = ([] : List Action)) := by
  unfold writeBundle at h
  dsimp only at h
  cases h1 : firstPass svc fs (chosenUpdater opts) (candidateFiles outDir bundle dts) [] with
  | error e => rw [h1] at h; cases h
  | ok recs1 =>
    rw [h1] at h
    cases hext : opts.extMap with
    | none =>
      rw [hext] at h
      dsimp only at h
      cases hmap : opts.specifierMap with
      | none =>
        rw [hmap] at h
        dsimp only at h
        injection h with h2
        rw [Prod.mk.injEq] at h2
        obtain ⟨rfl, rfl⟩ := h2
        exact ⟨rfl, [], [], by simp, rfl, rfl⟩
      | some m =>
        rw [hmap] at h
        dsimp only at h
        injection h with h2
        rw [Prod.mk.injEq] at h2
        obtain ⟨rfl, rfl⟩ := h2
        exact ⟨rfl, [], literalPass svc none m recs1 (candidateFiles outDir bundle dts),
          by simp, rfl, rfl⟩
    | some em =>
      rw [hext] at h
      dsimp only at h
      cases h2 : extMapPass svc fs em recs1 with
      | error e => rw [h2] at h; cases h
      | ok acts1 =>
        rw [h2] at h
        dsimp only at h
        cases hmap : opts.specifierMap with
        | none =>
          rw [hmap] at h
          dsimp only at h
          injection h with h3
          rw [Prod.mk.injEq] at h3
          obtain ⟨rfl, rfl⟩ := h3
          exact ⟨rfl, acts1, [], by simp, h2, rfl⟩
        | some m =>
          rw [hmap] at h
          dsimp only at h
          injection h with h3
          rw [Prod.mk.injEq] at h3
          obtain ⟨rfl, rfl⟩ := h3
          exact ⟨rfl, acts1, literalPass svc (some em) m recs1 (candidateFiles outDir bundle dts),
            rfl, h2, rfl⟩

/-! Concrete scenarios used by the closed theorems. -/

/-- Service oracle with no failures. -/
def svcOk : Svc := { thr := fun _ => false, err := fun _ => none, errSrc := fun _ => none }

/-- Service oracle whose update call rejects for paths ending in
"throws.js", mirroring the mocked failure of the repository test suite. -/
def svcThrow : Svc :=
  { thr := fun p => ew p (lit "throws.js"), err := fun _ => none, errSrc := fun _ => none }

def fsC2 : FS := [(lit "tmp/ok.js", [lit "./foo.js"]), (lit "tmp/throws.js", [lit "./x.js"])]

def optsC2 : Options :=
  { specifierMap := some [(lit "./foo.mjs", lit "./bar.mjs")],
    extMap := some [(lit ".js", lit ".mjs")], handler := none, writer := WriterOpt.callback }

/-- C2: the claim says a thrown or rejected `specifier.update` call is
caught, recorded as `{ error, code: "" }`, and the batch continues.  The
first pass of writeBundle has no try/catch: at the failing input (the
candidate file tmp/throws.js whose update call rejects, as in the mocked
repository test) the whole writeBundle invocation aborts with the
rejection, no records survive and the custom writer is never invoked,
while the sibling candidate tmp/ok.js had already been processed. -/
theorem C2_code_bug_rejection_aborts :
    writeBundle svcThrow fsC2 optsC2 (lit "tmp") [lit "ok.js", lit "throws.js"] [] =
      Except.error (lit "update rejected") := rfl

/-- C3 counterexample: the candidate list of writeBundle is a plain
concatenation of the manifest-derived files and the globbed declaration
files; a declaration file reported by both (the manifest filter accepts
".d.ts" names because they end in ".ts") occurs twice, refuting the claim
that the list contains each absolute path at most once. -/
theorem C3_counterexample :
    (candidateFiles (lit "dist") [lit "types.d.ts"] [lit "dist/types.d.ts"]).count
      (lit "dist/types.d.ts") = 2 := rfl

/-- C3 amended: no de-duplication is applied to the candidate list itself,
but the records object de-duplicates by path equality: after the first
pass the record keys are pairwise distinct, every candidate path is keyed,
and only candidate paths are keyed, so the record-driven passes visit a
path reported by both the manifest and the scan once. -/
theorem C3_amended_records_dedup {svc : Svc} {fs : FS} {u : Updater}
    {files : List Str} {recs : Records}
    (h : firstPass svc fs u files [] = Except.ok recs) :
    (recs.map Prod.fst).Nodup ∧
    (∀ f ∈ files, hasKey recs f = true) ∧
    (∀ f, hasKey recs f = true → f ∈ files) := by
  obtain ⟨hnd, hall, _, hfrom, _⟩ := firstPass_invariant svc fs u files [] recs h
  refine ⟨hnd List.nodup_nil, hall, fun f hf => ?_⟩
  rcases hfrom f hf with hk | hm
  · cases hk
  · exact hm

/-- Witness for the amended C3 theorem at the duplicated-candidate input. -/
theorem C3_amended_records_dedup_witness :
    ((([(lit "dist/types.d.ts",
        ({ code := [], error := some (lit "no such file") } : Rec))] : Records).map
          Prod.fst).Nodup ∧
      (∀ f ∈ candidateFiles (lit "dist") [lit "types.d.ts"] [lit "dist/types.d.ts"],
        hasKey [(lit "dist/types.d.ts",
          ({ code := [], error := some (lit "no such file") } : Rec))] f = true) ∧
      (∀ f, hasKey [(lit "dist/types.d.ts",
          ({ code := [], error := some (lit "no such file") } : Rec))] f = true →
        f ∈ candidateFiles (lit "dist") [lit "types.d.ts"] [lit "dist/types.d.ts"])) :=
  @C3_amended_records_dedup svcOk [] (fun _ => none)
    (candidateFiles (lit "dist") [lit "types.d.ts"] [lit "dist/types.d.ts"])
    [(lit "dist/types.d.ts", { code := [], error := some (lit "no such file") })] (by rfl)

def emC4 : ExtMap := [(lit ".d.ts", lit "dual")]

def optsC4 : Options :=
  { specifierMap := none, extMap := some emC4, handler := none, writer := WriterOpt.noneW }

def fsC4 : FS := [(lit "dist/file.d.ts", [lit "./foo.js"])]

/-- C4 counterexample: with an extension map that maps the declaration
suffix to dual but has no script entry at all, the claim says the
configuration error is detected eagerly and fatally, before any file
processing.  Instead writeBundle succeeds, rewrites the file and performs
three filesystem actions, silently defaulting the primary module system:
the record code goes to the ".d.cts" sibling. -/
theorem C4_counterexample :
    writeBundle svcOk fsC4 optsC4 (lit "dist") [] [lit "dist/file.d.ts"] =
      Except.ok
        ([(lit "dist/file.d.ts", { code := [lit "./foo.js"], error := none })],
         [Action.write (lit "dist/file.d.mts") [lit "./foo.mjs"],
          Action.write (lit "dist/file.d.cts") [lit "./foo.js"],
          Action.remove (lit "dist/file.d.ts")]) := rfl

def emC10 : ExtMap := [(lit ".js", lit ".mjs"), (lit ".d.ts", lit ".mjs")]

def optsC10 : Options :=
  { specifierMap := some [(lit "./foo.mjs", lit "./baz.mjs")],
    extMap := some emC10, handler := none, writer := WriterOpt.noneW }

def fsC10 : FS := [(lit "dist/file.d.ts", [lit "./foo.js"])]

/-- C10: for a declaration file, extname yields ".ts" rather than ".d.ts";
with a literal map and an extension map without a ".ts" key configured,
the literal pass therefore writes its output back to the original ".d.ts"
path, which the preceding extension-rename pass has renamed away and
deleted, recreating the original declaration filename: the trace renames
dist/file.d.ts to dist/file.d.mts, removes dist/file.d.ts, and then
writes dist/file.d.ts again. -/
theorem C10_literal_pass_recreates_deleted_decl :
    extname (lit "dist/file.d.ts") = lit ".ts" ∧
    lookupExt emC10 (lit ".ts") = none ∧
    writeBundle svcOk fsC10 optsC10 (lit "dist") [] [lit "dist/file.d.ts"] =
      Except.ok
        ([(lit "dist/file.d.ts", { code := [lit "./foo.mjs"], error := none })],
         [Action.write (lit "dist/file.d.mts") [lit "./foo.mjs"],
          Action.remove (lit "dist/file.d.ts"),
          Action.write (lit "dist/file.d.ts") [lit "./baz.mjs"]]) :=
  ⟨rfl, rfl, rfl⟩

def recsC5 : Records := [(lit "out/a.d.ts", { code := [lit "./x.mjs"], error := none })]

/-- C5 counterexample: the claim says that with an extension map also
configured the literal pass writes to the already-renamed path.  For a
declaration-file record the extname-derived extension is ".ts", the
lookup misses, and the pass writes to the pre-rename ".d.ts" path, which
differs from the renamed ".d.mts" path of the extension pass. -/
theorem C5_counterexample :
    literalPass svcOk (some [(lit ".js", lit ".mjs"), (lit ".d.ts", lit ".mjs")])
        [(lit "./x.mjs", lit "./y.mjs")] recsC5 [lit "out/a.d.ts"] =
      [Action.write (lit "out/a.d.ts") [lit "./y.mjs"]] ∧
    (lit "out/a.d.ts") ≠ replaceDts (lit "out/a.d.ts") (lit ".d.mts") :=
  ⟨rfl, by decide⟩

def emC6 : ExtMap := [(lit ".js", lit ".mjs")]

def optsC6 : Options :=
  { specifierMap := none, extMap := some emC6, handler := none, writer := WriterOpt.defaultW }

def fsC6 : FS := [(lit "dist/a.js", [lit "./b.js"])]

/-- C6 counterexample: with writer = true and an extension map, the claim
says the write-policy pass persists to the possibly already-renamed path.
The record key is never updated by the rename pass: the trace renames
dist/a.js to dist/a.mjs and removes dist/a.js, and the write-policy pass
then writes dist/a.js again, the pre-rename path, not dist/a.mjs. -/
theorem C6_counterexample :
    writeBundle svcOk fsC6 optsC6 (lit "dist") [lit "a.js"] [] =
      Except.ok
        ([(lit "dist/a.js", { code := [lit "./b.mjs"], error := none })],
         [Action.write (lit "dist/a.mjs") [lit "./b.mjs"],
          Action.remove (lit "dist/a.js"),
          Action.write (lit "dist/a.js") [lit "./b.mjs"]]) ∧
    (lit "dist/a.js") ≠ (lit "dist/a.mjs") :=
  ⟨rfl, by decide⟩

theorem svcUpdate_eval {svc : Svc} {fs : FS} {u : Updater} {f : Str} {specs : Specs}
    (hthr : svc.thr f = false) (herr : svc.err f = none) (hfs : alookup fs f = some specs) :
    svcUpdate svc fs u f = Except.ok { code := some (applySpecs u specs), error := none } := by
  unfold svcUpdate
  rw [hthr, herr, hfs]
  rfl

theorem applySpecs_ne_nil {u : Updater} {specs : Specs} (h : specs ≠ []) :
    applySpecs u specs ≠ [] := by
  unfold applySpecs
  simpa [List.map_eq_nil_iff] using h

/-- C4 amended: there is no eager configuration validation.  When the
declaration suffix maps to the dual sentinel but the extension map has no
".js" entry at all, the invocation is not fatal: the extension pass still
processes the file, silently treating CJS as the primary module system —
it writes the first-pass record code to the ".d.cts" sibling, an
ESM-rewritten copy of the file to the ".d.mts" sibling, and deletes the
original declaration file. -/
theorem C4_amended_dual_without_script_entry {svc : Svc} {fs : FS} {em : ExtMap}
    {f : Str} {r : Rec} {specs : Specs}
    (hdec : ew f (lit ".d.ts") = true)
    (hdual : lookupExt em (lit ".d.ts") = some (lit "dual"))
    (hjs : lookupExt em (lit ".js") = none)
    (herr : r.error = none)
    (hthr : svc.thr f = false) (hsvcerr : svc.err f = none)
    (hfs : alookup fs f = some specs) (hne : specs ≠ []) :
    extMapStep svc fs em f r =
      Except.ok
        [Action.write (dropSuf f 5 ++ lit ".d.mts") (applySpecs (dualCb (lit ".mjs")) specs),
         Action.write (dropSuf f 5 ++ lit ".d.cts") r.code,
         Action.remove f] := by
  have hcjs : (lookupExt em (lit ".js") = some (lit ".mjs")) = False := by
    rw [hjs]
    simp
  unfold extMapStep
  dsimp only
  simp only [hdec, hdual, herr, Option.getD_some, reduceIte, hcjs, if_false,
    svcUpdate_eval hthr hsvcerr hfs, ne_eq,
    if_pos (applySpecs_ne_nil (u := dualCb (lit ".mjs")) hne),
    replaceDts, dropSuf]
  simp only [List.singleton_append, if_pos (And.intro trivial (by decide : ¬ lit "dual" = []))]

/-- Witness for the amended C4 theorem at a concrete input. -/
theorem C4_amended_witness :
    extMapStep svcOk fsC4 emC4 (lit "dist/file.d.ts")
        { code := [lit "./foo.js"], error := none } =
      Except.ok
        [Action.write (dropSuf (lit "dist/file.d.ts") 5 ++ lit ".d.mts")
           (applySpecs (dualCb (lit ".mjs")) [lit "./foo.js"]),
         Action.write (dropSuf (lit "dist/file.d.ts") 5 ++ lit ".d.cts") [lit "./foo.js"],
         Action.remove (lit "dist/file.d.ts")] :=
  C4_amended_dual_without_script_entry (by decide) (by decide) (by decide) rfl rfl rfl rfl
    (by decide)

/-- C5 amended: the literal pass replaces exactly the specifiers that are
verbatim equal to a key of the literal map (value equality through the
map lookup, no pattern matching) and keeps every other specifier; and for
every record whose extname-derived extension is a key of the extension
map, it writes to the renamed path — the very path the extension-map pass
wrote that record to before deleting the original.  Declaration files,
whose extname is ".ts" rather than ".d.ts", fall outside the second part
(see the counterexample). -/
theorem C5_amended_literal_pass {svc : Svc} {fs : FS} {em : ExtMap} {m : List (Str × Str)}
    {records : Records} {f : Str} {r : Rec} {ne : Str}
    (hrec : alookup records f = some r) (herr : r.error = none)
    (hsrc : svc.errSrc r.code = none)
    (hcode : applySpecs (fun v => alookup m v) r.code ≠ [])
    (hkey : lookupExt em (extname f) = some ne)
    (hndec : ew f (lit ".d.ts") = false)
    (hnd : ne ≠ lit "dual") (hne2 : ne ≠ []) :
    literalStep svc (some em) m records f =
      [Action.write (replaceExt f (extname f) ne)
        (applySpecs (fun v => alookup m v) r.code)] ∧
    extMapStep svc fs em f r =
      Except.ok [Action.write (replaceExt f (extname f) ne) r.code, Action.remove f] := by
  constructor
  · unfold literalStep
    rw [hrec]
    dsimp only
    unfold svcUpdateSrc
    simp only [herr, hsrc, reduceIte, ne_eq, hkey]
    simp [hcode]
  · unfold extMapStep
    dsimp only
    simp only [hndec, Bool.false_eq_true, if_false, hkey, Option.getD_some, herr, ne_eq,
      if_neg hnd]
    simp [hne2]

/-- Witness for the amended C5 theorem at a concrete input. -/
theorem C5_amended_witness :
    literalStep svcOk (some [(lit ".js", lit ".cjs")]) [(lit "./x.js", lit "./y.js")]
        [(lit "dist/a.js", { code := [lit "./x.js"], error := none })] (lit "dist/a.js") =
      [Action.write (replaceExt (lit "dist/a.js") (extname (lit "dist/a.js")) (lit ".cjs"))
        (applySpecs (fun v => alookup [(lit "./x.js", lit "./y.js")] v) [lit "./x.js"])] ∧
    extMapStep svcOk [(lit "dist/a.js", [lit "./x.js"])] [(lit ".js", lit ".cjs")]
        (lit "dist/a.js") { code := [lit "./x.js"], error := none } =
      Except.ok
        [Action.write (replaceExt (lit "dist/a.js") (extname (lit "dist/a.js")) (lit ".cjs"))
           [lit "./x.js"],
         Action.remove (lit "dist/a.js")] :=
  @C5_amended_literal_pass svcOk [(lit "dist/a.js", [lit "./x.js"])]
    [(lit ".js", lit ".cjs")] [(lit "./x.js", lit "./y.js")]
    [(lit "dist/a.js", { code := [lit "./x.js"], error := none })]
    (lit "dist/a.js") { code := [lit "./x.js"], error := none } (lit ".cjs")
    rfl rfl rfl (by decide) (by decide) (by decide) (by decide) (by decide)

theorem writerPass_mem {records : Records} {f : Str} {r : Rec}
    (hm : (f, r) ∈ records) (he : r.error = none) :
    Action.write f r.code ∈ writerPass WriterOpt.defaultW records := by
  unfold writerPass
  rw [List.mem_filterMap]
  exact ⟨(f, r), hm, by simp [he]⟩

theorem writerPass_mem_inv {records : Records} {a : Action}
    (ha : a ∈ writerPass WriterOpt.defaultW records) :
    ∃ f r, (f, r) ∈ records ∧ r.error = none ∧ a = Action.write f r.code := by
  unfold writerPass at ha
  rw [List.mem_filterMap] at ha
  obtain ⟨p, hp, he⟩ := ha
  by_cases h : p.2.error = none
  · refine ⟨p.1, p.2, hp, h, ?_⟩
    rw [if_pos h] at he
    cases he
    rfl
  · rw [if_neg h] at he
    cases he

/-- C6 amended: with writer = true, the write-policy stage persists every
record without an error back to that record key, which is always the
original candidate path produced by the first pass — the rename pass
never updates record keys, so the persisted path is the pre-rename one —
and emits no write for a record that carries an error. -/
theorem C6_amended_writer_true {svc : Svc} {fs : FS} {opts : Options} {outDir : Str}
    {bundle dts : List Str} {records : Records} {acts : List Action}
    (h : writeBundle svc fs opts outDir bundle dts = Except.ok (records, acts))
    (hw : opts.writer = WriterOpt.defaultW) :
    (∀ f r, (f, r) ∈ records → r.error = none → Action.write f r.code ∈ acts) ∧
    (∀ f r, (f, r) ∈ records → f ∈ candidateFiles outDir bundle dts) ∧
    (∀ a ∈ writerPass WriterOpt.defaultW records,
      ∃ f r, (f, r) ∈ records ∧ r.error = none ∧ a = Action.write f r.code) := by
  obtain ⟨hfp, acts1, acts2, hacts, _, _⟩ := writeBundle_parts h
  refine ⟨?_, ?_, fun a ha => writerPass_mem_inv ha⟩
  · intro f r hm he
    rw [hacts, hw]
    exact List.mem_append.mpr (Or.inr (writerPass_mem hm he))
  · intro f r hm
    obtain ⟨_, _, _, hfrom, _⟩ := firstPass_invariant svc fs _ _ [] records hfp
    rcases hfrom f (hasKey_of_mem hm) with hk | hmem
    · cases hk
    · exact hmem

/-- Witness for the amended C6 theorem at a concrete input. -/
theorem C6_amended_witness :
    (∀ f r, (f, r) ∈ ([(lit "dist/a.js", { code := [lit "./b.mjs"], error := none })] :
        Records) → r.error = none →
      Action.write f r.code ∈
        [Action.write (lit "dist/a.mjs") [lit "./b.mjs"],
         Action.remove (lit "dist/a.js"),
         Action.write (lit "dist/a.js") [lit "./b.mjs"]]) ∧
    (∀ f r, (f, r) ∈ ([(lit "dist/a.js", { code := [lit "./b.mjs"], error := none })] :
        Records) → f ∈ candidateFiles (lit "dist") [lit "a.js"] []) ∧
    (∀ a ∈ writerPass WriterOpt.defaultW
        ([(lit "dist/a.js", { code := [lit "./b.mjs"], error := none })] : Records),
      ∃ f r, (f, r) ∈ ([(lit "dist/a.js", { code := [lit "./b.mjs"], error := none })] :
          Records) ∧ r.error = none ∧ a = Action.write f r.code) :=
  @C6_amended_writer_true svcOk fsC6 optsC6 (lit "dist") [lit "a.js"] []
    [(lit "dist/a.js", { code := [lit "./b.mjs"], error := none })]
    [Action.write (lit "dist/a.mjs") [lit "./b.mjs"],
     Action.remove (lit "dist/a.js"),
     Action.write (lit "dist/a.js") [lit "./b.mjs"]] (by rfl) rfl

theorem countP_zero_of_all {l : List Action} (h : l.all (fun a => ! isCallW a) = true) :
    l.countP isCallW = 0 := by
  rw [List.countP_eq_zero]
  intro a ha
  have := List.all_eq_true.mp h a ha
  simpa using this

/-- C7: when the writer option is a callback, the trace contains exactly
one writer invocation, it receives the full records object, that object
keys every candidate file (error or success records alike), and in a
configuration without extension or literal maps the invocation is the
only action at all — no default filesystem write happens for those
records. -/
theorem C7_custom_writer_contract {svc : Svc} {fs : FS} {opts : Options} {outDir : Str}
    {bundle dts : List Str} {records : Records} {acts : List Action}
    (h : writeBundle svc fs opts outDir bundle dts = Except.ok (records, acts))
    (hw : opts.writer = WriterOpt.callback) :
    acts.countP isCallW = 1 ∧
    Action.callWriter records ∈ acts ∧
    (∀ f ∈ candidateFiles outDir bundle dts, hasKey records f = true) ∧
    (opts.extMap = none → opts.specifierMap = none →
      acts = [Action.callWriter records]) := by
  obtain ⟨hfp, acts1, acts2, hacts, hext, hmap⟩ := writeBundle_parts h
  have h1 : acts1.all (fun a => ! isCallW a) = true := by
    revert hext
    cases opts.extMap with
    | some em => exact fun hext => extMapPass_no_call hext
    | none => intro hext; rw [hext]; rfl
  have h2 : acts2.all (fun a => ! isCallW a) = true := by
    revert hmap
    cases opts.specifierMap with
    | some m => intro hmap; rw [hmap]; exact literalPass_no_call
    | none => intro hmap; rw [hmap]; rfl
  have hwp : writerPass opts.writer records = [Action.callWriter records] := by
    rw [hw]
    rfl
  refine ⟨?_, ?_, ?_, ?_⟩
  · rw [hacts, List.countP_append, List.countP_append, countP_zero_of_all h1,
      countP_zero_of_all h2, hwp]
    rfl
  · rw [hacts, hwp]
    exact List.mem_append.mpr (Or.inr (List.mem_singleton.mpr rfl))
  · obtain ⟨_, hall, _, _, _⟩ := firstPass_invariant svc fs _ _ [] records hfp
    exact hall
  · intro he hm
    have ha1 : acts1 = [] := by rw [he] at hext; exact hext
    have ha2 : acts2 = [] := by rw [hm] at hmap; exact hmap
    rw [hacts, hwp, ha1, ha2]
    rfl

def optsC7 : Options :=
  { specifierMap := none, extMap := none, handler := none, writer := WriterOpt.callback }

def recsC7 : Records := [(lit "dist/a.js", { code := [lit "./b.js"], error := none })]

/-- Witness for the C7 theorem at a concrete input. -/
theorem C7_witness :
    ([Action.callWriter recsC7] : List Action).countP isCallW = 1 ∧
    Action.callWriter recsC7 ∈ ([Action.callWriter recsC7] : List Action) ∧
    (∀ f ∈ candidateFiles (lit "dist") [lit "a.js"] [], hasKey recsC7 f = true) ∧
    (optsC7.extMap = none → optsC7.specifierMap = none →
      ([Action.callWriter recsC7] : List Action) = [Action.callWriter recsC7]) :=
  @C7_custom_writer_contract svcOk [(lit "dist/a.js", [lit "./b.js"])] optsC7
    (lit "dist") [lit "a.js"] [] recsC7 [Action.callWriter recsC7] (by rfl) rfl

theorem getExtMap_cons (e : Str × Str) (rest : ExtMap) :
    getExtMap (e :: rest) =
      if isDecKey e.1 then getExtMap rest
      else { ext := e.1, target := e.2 } :: getExtMap rest := by
  by_cases h : isDecKey e.1 <;> simp [getExtMap, List.filter_cons, h]

theorem getExtMap_keys {em : ExtMap} {r : ExtRule} (h : r ∈ getExtMap em) :
    ∃ e ∈ em, r.ext = e.1 ∧ r.target = e.2 ∧ isDecKey e.1 = false := by
  unfold getExtMap at h
  rw [List.mem_map] at h
  obtain ⟨e, he, rfl⟩ := h
  rw [List.mem_filter] at he
  exact ⟨e, he.1, rfl, rfl, by simpa using he.2⟩

theorem getExtMap_filter_of_not_mem {em : ExtMap} {k : Str} (h : k ∉ em.map Prod.fst) :
    (getExtMap em).filter (fun r => decide (r.ext = k)) = [] := by
  induction em with
  | nil => rfl
  | cons e rest ih =>
    have hk : ¬ e.1 = k := fun he => h (by rw [List.map_cons, he]; exact List.mem_cons_self _ _)
    have hr : k ∉ rest.map Prod.fst := fun hm => h (by rw [List.map_cons]; exact List.mem_cons_of_mem _ hm)
    rw [getExtMap_cons]
    by_cases hd : isDecKey e.1
    · rw [if_pos hd]
      exact ih hr
    · rw [if_neg hd, List.filter_cons, decide_eq_false hk]
      simp only [Bool.false_eq_true, if_false]
      exact ih hr

/-- C8: for every key of the extension map other than a declaration
suffix, the compiled rule set holds exactly one rule for that key; a rule
matches exactly the relative specifiers (those starting "./" or "../")
ending in its literal suffix, replacing the suffix by the mapped target
and preserving the path; declaration keys produce no rule; and on a
specifier that is not relative, the compiled rule set never fires. -/
theorem C8_getExtMap_rules {em : ExtMap} (hnd : (em.map Prod.fst).Nodup) :
    (∀ k t, (k, t) ∈ em → isDecKey k = false →
      (getExtMap em).filter (fun r => decide (r.ext = k)) = [{ ext := k, target := t }]) ∧
    (∀ r ∈ getExtMap em, isDecKey r.ext = false) ∧
    (∀ r ∈ getExtMap em, ∀ (p s : Str), (p = lit "./" ∨ p = lit "../") → s ≠ [] →
      ruleApply r (p ++ s ++ r.ext) = some (p ++ s ++ r.target)) ∧
    (∀ v : Str, sw v (lit "./") = false → sw v (lit "../") = false →
      applyRules (getExtMap em) v = none) := by
  refine ⟨?_, ?_, ?_, ?_⟩
  · intro k t hm hk
    induction em with
    | nil => cases hm
    | cons e rest ih =>
      rw [List.map_cons, List.nodup_cons] at hnd
      rcases List.mem_cons.mp hm with he | hrest
      · cases he
        rw [getExtMap_cons, if_neg (by simp [hk]), List.filter_cons]
        simp only [decide_True, if_true]
        rw [getExtMap_filter_of_not_mem hnd.1]
      · have hek : ¬ e.1 = k := fun he2 =>
          hnd.1 (he2 ▸ List.mem_map_of_mem Prod.fst hrest)
        rw [getExtMap_cons]
        by_cases hd : isDecKey e.1
        · rw [if_pos hd]
          exact ih hnd.2 hrest
        · rw [if_neg hd, List.filter_cons, decide_eq_false hek]
          simp only [Bool.false_eq_true, if_false]
          exact ih hnd.2 hrest
  · intro r hr
    obtain ⟨e, _, hext, _, hdec⟩ := getExtMap_keys hr
    rw [hext]
    exact hdec
  · intro r _ p s hp hs
    exact ruleApply_match r s hp hs
  · intro v h1 h2
    exact applyRules_none_of_not_rel (relPre_none h1 h2) _

def emDual : ExtMap := [(lit ".js", lit ".mjs"), (lit ".d.ts", lit "dual")]

/-- Witness for the C8 theorem: on the canonical dual map, the ".js" key
compiles to exactly one rule, that rule rewrites "./foo.js" to
"./foo.mjs", and a bare specifier is never touched. -/
theorem C8_witness :
    (getExtMap emDual).filter (fun r => decide (r.ext = lit ".js")) =
      [{ ext := lit ".js", target := lit ".mjs" }] ∧
    ruleApply { ext := lit ".js", target := lit ".mjs" }
        (lit "./" ++ lit "foo" ++ lit ".js") =
      some (lit "./" ++ lit "foo" ++ lit ".mjs") ∧
    applyRules (getExtMap emDual) (lit "react") = none :=
  ⟨(@C8_getExtMap_rules emDual (by decide)).1 (lit ".js") (lit ".mjs") (by decide)
     (by decide),
   (@C8_getExtMap_rules emDual (by decide)).2.2.1 { ext := lit ".js", target := lit ".mjs" }
     (by decide) (lit "./") (lit "foo") (Or.inl rfl) (by decide),
   (@C8_getExtMap_rules emDual (by decide)).2.2.2 (lit "react") (by decide) (by decide)⟩

/-- An extension map whose targets can never re-trigger one of its own
rules: no target of an entry is suffix-comparable with any key.  Every
well-formed script map whose targets are not themselves keys satisfies
this, because no two distinct recognized suffixes are suffixes of one
another. -/
def emTargetsFresh (em : ExtMap) : Bool :=
  em.all (fun e => em.all (fun e2 => ! ew e.2 e2.1 && ! ew e2.1 e.2))

/-- A specifier of an already-renamed output: either not relative, or
already ending in one of the target suffixes of the map. -/
def specRenamed (em : ExtMap) (v : Str) : Bool :=
  decide (relPre v = none) || em.any (fun e => ew v e.2)

/-- A file of an already-renamed output set: its pass-relevant extension
is no key of the map any more, and the file exists on disk with only
renamed (or non-relative) specifiers. -/
def fileRenamed (em : ExtMap) (fs : FS) (f : Str) : Bool :=
  decide (lookupExt em (fileExtOf f) = none) &&
  (match alookup fs f with
   | some specs => specs.all (specRenamed em)
   | none => false)

theorem applyRules_none_of_all {v : Str} : ∀ {rules : List ExtRule},
    (∀ r ∈ rules, ruleApply r v = none) → applyRules rules v = none := by
  intro rules
  induction rules with
  | nil => intro _; rfl
  | cons r rs ih =>
    intro h
    unfold applyRules
    rw [h r (List.mem_cons_self _ _)]
    exact ih (fun q hq => h q (List.mem_cons_of_mem _ hq))

theorem applyRules_none_of_renamed {em : ExtMap} {v : Str}
    (hfresh : emTargetsFresh em = true) (hv : specRenamed em v = true) :
    applyRules (getExtMap em) v = none := by
  unfold specRenamed at hv
  rw [Bool.or_eq_true] at hv
  rcases hv with hv | hv
  · exact applyRules_none_of_not_rel (of_decide_eq_true hv) _
  · rw [List.any_eq_true] at hv
    obtain ⟨e, he, hew⟩ := hv
    apply applyRules_none_of_all
    intro r hr
    obtain ⟨e2, he2, hext, _, _⟩ := getExtMap_keys hr
    apply ruleApply_no_suffix
    rw [hext]
    have hf := List.all_eq_true.mp (List.all_eq_true.mp hfresh e he) e2 he2
    rw [Bool.and_eq_true, Bool.not_eq_true', Bool.not_eq_true'] at hf
    exact suffix_incomp hew hf.2 hf.1

/-- C9: running the engine again, with the extension map alone configured,
over an output set already renamed by a previous run with the same map is
a no-op: the run succeeds, every record holds the on-disk code unchanged
(no specifier is rewritten, because every relative specifier already ends
in a target suffix that matches no compiled rule), and the action trace
is empty — no file is written and no file is deleted. -/
theorem C9_second_run_noop {svc : Svc} {fs : FS} {em : ExtMap} {outDir : Str}
    {bundle dts : List Str}
    (hfresh : emTargetsFresh em = true)
    (hfiles : ∀ f ∈ candidateFiles outDir bundle dts,
      fileRenamed em fs f = true ∧ svc.thr f = false ∧ svc.err f = none) :
    ∃ records,
      writeBundle svc fs
          { specifierMap := none, extMap := some em, handler := none,
            writer := WriterOpt.noneW } outDir bundle dts =
        Except.ok (records, []) ∧
      ∀ p ∈ records, p.2.error = none ∧ alookup fs p.1 = some p.2.code := by
  set opts : Options :=
    { specifierMap := none, extMap := some em, handler := none, writer := WriterOpt.noneW }
    with hopts
  have hu : chosenUpdater opts = applyRules (getExtMap em) := rfl
  obtain ⟨records, hfp⟩ :=
    @firstPass_ok svc fs (chosenUpdater opts) (candidateFiles outDir bundle dts) []
      (fun f hf => (hfiles f hf).2.1)
  obtain ⟨_, _, _, hfrom, hent⟩ :=
    firstPass_invariant svc fs (chosenUpdater opts) (candidateFiles outDir bundle dts)
      [] records hfp
  have hmemfile : ∀ p ∈ records, p.1 ∈ candidateFiles outDir bundle dts := by
    intro p hp
    rcases hfrom p.1 (hasKey_of_mem hp) with hk | hm
    · cases hk
    · exact hm
  have hrec : ∀ p ∈ records, p.2.error = none ∧ alookup fs p.1 = some p.2.code := by
    intro p hp
    have hf := (hfiles p.1 (hmemfile p hp)).1
    unfold fileRenamed at hf
    rw [Bool.and_eq_true] at hf
    rcases hent p hp with hp0 | ⟨res, hres, hval⟩
    · cases hp0
    · cases hspecs : alookup fs p.1 with
      | none => rw [hspecs] at hf; cases hf.2
      | some specs =>
        rw [hspecs] at hf
        have hall := hf.2
        have hid : applySpecs (chosenUpdater opts) specs = specs := by
          apply applySpecs_id
          intro v hv
          rw [hu]
          exact applyRules_none_of_renamed hfresh (List.all_eq_true.mp hall v hv)
        have hupd : svcUpdate svc fs (chosenUpdater opts) p.1 =
            Except.ok { code := some specs, error := none } := by
          rw [svcUpdate_eval (hfiles p.1 (hmemfile p hp)).2.1
            (hfiles p.1 (hmemfile p hp)).2.2 hspecs, hid]
        rw [hupd] at hres
        cases hres
        rw [hval]
        exact ⟨rfl, by simp [hspecs]⟩
  have hskip : extMapPass svc fs em records = Except.ok [] := by
    apply extMapPass_skip
    intro p hp
    have hf := (hfiles p.1 (hmemfile p hp)).1
    unfold fileRenamed at hf
    rw [Bool.and_eq_true] at hf
    exact of_decide_eq_true hf.1
  refine ⟨records, ?_, hrec⟩
  unfold writeBundle
  dsimp only
  rw [hfp]
  dsimp only
  rw [hskip]
  rfl

/-- Witness for the C9 theorem at a concrete already-renamed output. -/
theorem C9_witness :
    ∃ records,
      writeBundle svcOk [(lit "dist/foo.mjs", [lit "./bar.mjs", lit "react"])]
          { specifierMap := none, extMap := some [(lit ".js", lit ".mjs")], handler := none,
            writer := WriterOpt.noneW } (lit "dist") [lit "foo.mjs"] [] =
        Except.ok (records, []) ∧
      ∀ p ∈ records, p.2.error = none ∧
        alookup [(lit "dist/foo.mjs", [lit "./bar.mjs", lit "react"])] p.1 =
          some p.2.code :=
  C9_second_run_noop (by decide) (by decide)

/-- C1: for a declaration file record without an error under the dual
configuration with ESM primary (extMap maps ".js" to ".mjs" and ".d.ts"
to dual), the extension pass of writeBundle emits exactly two sibling
declaration files — the ".d.cts" sibling whose relative specifiers all
end in ".cjs" and the ".d.mts" sibling whose relative specifiers all end
in ".mjs" — and then deletes the original ".d.ts" file; the sibling paths
differ from the original, so the original filename is gone. -/
theorem C1_dual_emission {svc : Svc} {fs : FS} {f : Str} {specs : Specs} {outDir : Str}
    (hdec : ew f (lit ".d.ts") = true)
    (hthr : svc.thr f = false) (herr : svc.err f = none)
    (hfs : alookup fs f = some specs)
    (hne : specs ≠ [])
    (hall : ∀ v ∈ specs, relJsSpec v = true) :
    writeBundle svc fs
        { specifierMap := none, extMap := some emDual, handler := none,
          writer := WriterOpt.noneW } outDir [] [f] =
      Except.ok
        ([(f, { code := specs.map (fun v => dropSuf v 3 ++ lit ".mjs"), error := none })],
         [Action.write (dropSuf f 5 ++ lit ".d.cts")
            (specs.map (fun v => dropSuf v 3 ++ lit ".cjs")),
          Action.write (dropSuf f 5 ++ lit ".d.mts")
            (specs.map (fun v => dropSuf v 3 ++ lit ".mjs")),
          Action.remove f]) ∧
    (∀ w ∈ specs.map (fun v => dropSuf v 3 ++ lit ".cjs"), ew w (lit ".cjs") = true) ∧
    (∀ w ∈ specs.map (fun v => dropSuf v 3 ++ lit ".mjs"), ew w (lit ".mjs") = true) ∧
    dropSuf f 5 ++ lit ".d.cts" ≠ f ∧ dropSuf f 5 ++ lit ".d.mts" ≠ f := by
  set opts : Options :=
    { specifierMap := none, extMap := some emDual, handler := none,
      writer := WriterOpt.noneW } with hopts
  have hrules : getExtMap emDual = [{ ext := lit ".js", target := lit ".mjs" }] := rfl
  have hmjs : applySpecs (applyRules (getExtMap emDual)) specs =
      specs.map (fun v => dropSuf v 3 ++ lit ".mjs") := by
    unfold applySpecs
    apply List.map_congr_left
    intro v hv
    rw [hrules, applyRules_js (hall v hv)]
    rfl
  have hcjs : applySpecs (dualCb (lit ".cjs")) specs =
      specs.map (fun v => dropSuf v 3 ++ lit ".cjs") := by
    unfold applySpecs
    apply List.map_congr_left
    intro v hv
    obtain ⟨hjs, hrel, hlen⟩ := relJsSpec_parts (hall v hv)
    rw [dualCb_js _ hrel hjs hlen]
    rfl
  have hsvc1 : svcUpdate svc fs (chosenUpdater opts) f =
      Except.ok
        { code := some (specs.map (fun v => dropSuf v 3 ++ lit ".mjs")),
          error := none } := by
    rw [svcUpdate_eval hthr herr hfs,
      show chosenUpdater opts = applyRules (getExtMap emDual) from rfl, hmjs]
  have hfp : firstPass svc fs (chosenUpdater opts) [f] [] =
      Except.ok
        [(f, { code := specs.map (fun v => dropSuf v 3 ++ lit ".mjs"), error := none })] := by
    unfold firstPass
    rw [hsvc1]
    rfl
  have hsvc2 : svcUpdate svc fs (dualCb (lit ".cjs")) f =
      Except.ok
        { code := some (specs.map (fun v => dropSuf v 3 ++ lit ".cjs")),
          error := none } := by
    rw [svcUpdate_eval hthr herr hfs, hcjs]
  have hcne : specs.map (fun v => dropSuf v 3 ++ lit ".cjs") ≠ [] := by
    simpa [List.map_eq_nil_iff] using hne
  have l1 : lookupExt emDual (lit ".d.ts") = some (lit "dual") := by decide
  have l2 : (lookupExt emDual (lit ".js") = some (lit ".mjs")) = True := eq_true (by decide)
  have hstep : extMapStep svc fs emDual f
      { code := specs.map (fun v => dropSuf v 3 ++ lit ".mjs"), error := none } =
      Except.ok
        [Action.write (dropSuf f 5 ++ lit ".d.cts")
           (specs.map (fun v => dropSuf v 3 ++ lit ".cjs")),
         Action.write (dropSuf f 5 ++ lit ".d.mts")
           (specs.map (fun v => dropSuf v 3 ++ lit ".mjs")),
         Action.remove f] := by
    unfold extMapStep
    dsimp only
    simp only [hdec, reduceIte, l1, Option.getD_some, l2, if_true, hsvc2, ne_eq, replaceDts]
    simp [hcne]
    decide
  have hpass : extMapPass svc fs emDual
      [(f, { code := specs.map (fun v => dropSuf v 3 ++ lit ".mjs"), error := none })] =
      Except.ok
        [Action.write (dropSuf f 5 ++ lit ".d.cts")
           (specs.map (fun v => dropSuf v 3 ++ lit ".cjs")),
         Action.write (dropSuf f 5 ++ lit ".d.mts")
           (specs.map (fun v => dropSuf v 3 ++ lit ".mjs")),
         Action.remove f] := by
    unfold extMapPass
    rw [hstep]
    rfl
  have hdecomp : dropSuf f 5 ++ lit ".d.ts" = f := dropSuf_decomp hdec
  refine ⟨?_, ?_, ?_, ?_, ?_⟩
  · unfold writeBundle
    dsimp only
    rw [show candidateFiles outDir [] [f] = [f] from rfl, hfp]
    dsimp only
    rw [hpass]
    simp only [List.append_nil]
    rfl
  · intro w hw
    rw [List.mem_map] at hw
    obtain ⟨v, _, rfl⟩ := hw
    exact ew_append _ _
  · intro w hw
    rw [List.mem_map] at hw
    obtain ⟨v, _, rfl⟩ := hw
    exact ew_append _ _
  · intro hcontra
    have : lit ".d.cts" = lit ".d.ts" :=
      List.append_cancel_left (hcontra.trans hdecomp.symm)
    exact absurd this (by decide)
  · intro hcontra
    have : lit ".d.mts" = lit ".d.ts" :=
      List.append_cancel_left (hcontra.trans hdecomp.symm)
    exact absurd this (by decide)

/-- Witness for the C1 theorem at a concrete input. -/
theorem C1_witness :
    writeBundle svcOk [(lit "dist/file.d.ts", [lit "./foo.js"])]
        { specifierMap := none, extMap := some emDual, handler := none,
          writer := WriterOpt.noneW } (lit "dist") [] [lit "dist/file.d.ts"] =
      Except.ok
        ([(lit "dist/file.d.ts",
           { code := [lit "./foo.js"].map (fun v => dropSuf v 3 ++ lit ".mjs"),
             error := none })],
         [Action.write (dropSuf (lit "dist/file.d.ts") 5 ++ lit ".d.cts")
            ([lit "./foo.js"].map (fun v => dropSuf v 3 ++ lit ".cjs")),
          Action.write (dropSuf (lit "dist/file.d.ts") 5 ++ lit ".d.mts")
            ([lit "./foo.js"].map (fun v => dropSuf v 3 ++ lit ".mjs")),
          Action.remove (lit "dist/file.d.ts")]) ∧
    (∀ w ∈ [lit "./foo.js"].map (fun v => dropSuf v 3 ++ lit ".cjs"),
      ew w (lit ".cjs") = true) ∧
    (∀ w ∈ [lit "./foo.js"].map (fun v => dropSuf v 3 ++ lit ".mjs"),
      ew w (lit ".mjs") = true) ∧
    dropSuf (lit "dist/file.d.ts") 5 ++ lit ".d.cts" ≠ lit "dist/file.d.ts" ∧
    dropSuf (lit "dist/file.d.ts") 5 ++ lit ".d.mts" ≠ lit "dist/file.d.ts" :=
  C1_dual_emission (by decide) rfl rfl rfl (by decide) (by decide)

end VPS
